import Mathlib

/-!
Verification of the `filescombine` gathering pipeline (`Gather`, `walkFiles`,
`loadGitignorePatterns`, `shouldIgnore`, `shouldIgnorePatterns`, `processFile`,
`merge`, `readFileContent`) against its design specification.

The Go source is embedded shallowly: the directory tree is a value of an
inductive type, channels become lists, goroutine nondeterminism becomes
quantification over permutations, and machine strings become `List Char`
manipulations (Go's byte-level operations are only ever applied at ASCII
boundaries such as `'!'`, `'/'`, `'.'`, so character-level splitting is exact).
-/

namespace FilesCombine

/-! ## Character and string primitives

Models of the Go standard library string functions used by the source
(`strings.HasPrefix`, `strings.HasSuffix`, `strings.TrimRight`,
`strings.TrimSpace`, `strings.Split`, `strings.Contains`, `filepath.Ext`,
`filepath.Match`).  They are defined by structural recursion over the
character list of the string so that every concrete run evaluates. -/

/-- Model of `strings.HasPrefix` at character level: `pre` is an initial
segment of the list. -/
def charsStart : List Char → List Char → Bool
  | [], _ => true
  | _ :: _, [] => false
  | p :: ps, c :: cs => p == c && charsStart ps cs

/-- Model of `strings.HasPrefix p s`. -/
def strStarts (s p : String) : Bool := charsStart p.data s.data

/-- Model of `strings.HasSuffix p s`. -/
def strEnds (s p : String) : Bool := charsStart p.data.reverse s.data.reverse

/-- Split a character list at a separator; like Go `strings.Split`, the
empty input yields one empty field. -/
def splitCharsAux (sep : Char) : List Char → List Char → List (List Char)
  | [], acc => [acc.reverse]
  | c :: cs, acc =>
      if c == sep then acc.reverse :: splitCharsAux sep cs []
      else splitCharsAux sep cs (c :: acc)

/-- Model of `strings.Split s (String sep)` for a one-character separator. -/
def strSplit (s : String) (sep : Char) : List String :=
  (splitCharsAux sep s.data []).map String.mk

/-- Model of `strings.Contains s (String c)` for a one-character needle. -/
def strHasChar (s : String) (c : Char) : Bool := s.data.contains c

/-- Model of `strings.TrimRight s " "`: drop trailing space characters. -/
def trimRightSpaces (s : String) : String :=
  String.mk (s.data.reverse.dropWhile (fun c => c == ' ')).reverse

/-- Whitespace recognised by Go `unicode.IsSpace` restricted to the ASCII
range that `.gitignore` files contain. -/
def isSpaceChar (c : Char) : Bool :=
  c == ' ' || c == '\t' || c == '\n' || c == '\x0b' || c == '\x0c' || c == '\r'

/-- Model of `strings.TrimSpace`. -/
def trimSpace (s : String) : String :=
  String.mk ((s.data.dropWhile isSpaceChar).reverse.dropWhile isSpaceChar).reverse

/-- Drop the first `n` characters, as Go `p[n:]` on ASCII data. -/
def strDrop (s : String) (n : Nat) : String := String.mk (s.data.drop n)

/-- Drop the last `n` characters, as Go `p[:len(p)-n]` on ASCII data. -/
def strDropRight (s : String) (n : Nat) : String :=
  String.mk (s.data.take (s.data.length - n))

/-- Join path segments with `'/'`, the inverse of `strSplit · '/'` for
slash-free segments; models how `filepath.ToSlash`-normalised relative paths
are built segment by segment during the walk. -/
def joinChars (sep : Char) : List (List Char) → List Char
  | [] => []
  | [x] => x
  | x :: xs => x ++ sep :: joinChars sep xs

/-- The forward-slash relative path denoted by a segment list. -/
def relOf (segs : List String) : String :=
  String.mk (joinChars '/' (segs.map String.data))

/-- Model of `filepath.Match` (boolean result), fuel-indexed so that the
recursion is structural: `*` matches any run of non-separator characters,
`?` one non-separator character, `\\c` the literal `c`, and other characters
themselves.  Go reports malformed patterns through an error that every caller
in the source discards, leaving `matched = false`; the model returns `false`
directly in those situations.  Character classes are not modelled: no pattern
in the repository or its specification uses them.  The fuel
`p.length + s.length + 1` strictly dominates the recursion depth, so it never
runs out. -/
def goMatchFuel : Nat → List Char → List Char → Bool
  | 0, _, _ => false
  | _ + 1, [], s => s.isEmpty
  | fuel + 1, '*' :: ps, s =>
      goMatchFuel fuel ps s ||
        (match s with
         | [] => false
         | c :: s2 => c != '/' && goMatchFuel fuel ('*' :: ps) s2)
  | fuel + 1, '?' :: ps, c :: s2 => c != '/' && goMatchFuel fuel ps s2
  | fuel + 1, '\\' :: pc :: ps, c :: s2 => pc == c && goMatchFuel fuel ps s2
  | fuel + 1, pc :: ps, c :: s2 => pc == c && goMatchFuel fuel ps s2
  | _ + 1, _ :: _, [] => false

/-- Model of `filepath.Match pattern name` as used on base names. -/
def goMatch (p s : String) : Bool :=
  goMatchFuel (p.data.length + s.data.length + 1) p.data s.data

/-- Model of `filepath.Ext`: the suffix of the base name starting at its
final dot, empty when the name has no dot. -/
def goExt (name : String) : String :=
  let rev := name.data.reverse
  let afterDot := rev.takeWhile (fun c => c != '.')
  if afterDot.length == rev.length then ""
  else String.mk ('.' :: afterDot.reverse)

/-! ## Gitignore pattern matcher

Modelled from the spec: the pattern compiler and matcher live in the external
`go-git` gitignore library (`gitignore.ParsePattern`, `gitignore.NewMatcher`,
`Matcher.Match`), which is not part of this repository's sources.  Following
the specification: a pattern is optionally negated (leading `!`), optionally
directory-only (trailing `/`), and anchored exactly when it mentions a `/`;
an unanchored pattern matches when its glob matches any path segment, an
anchored pattern matches path segments from the root; the **last** matching
rule in declaration order decides, a negated rule re-including the path. -/

inductive MatchResult where
  | noMatch
  | excl
  | incl
deriving DecidableEq

structure GitPattern where
  pat : List String
  inclusion : Bool
  dirOnly : Bool
  isGlob : Bool
deriving DecidableEq

/-- Modelled from the spec: compilation of one `.gitignore` line
(`gitignore.ParsePattern` with a nil domain). -/
def parsePattern (p : String) : GitPattern :=
  let inclusion := strStarts p "!"
  let p1 := if inclusion then strDrop p 1 else p
  let p2 := if strEnds p1 "\\ " then p1 else trimRightSpaces p1
  let dirOnly := strEnds p2 "/"
  let p3 := if dirOnly then strDropRight p2 1 else p2
  { pat := strSplit p3 '/'
    inclusion := inclusion
    dirOnly := dirOnly
    isGlob := strHasChar p3 '/' }

/-- Modelled from the spec: an unanchored (basename) pattern matches when its
glob matches some path segment; a directory-only pattern refuses a match whose
only hit is the final segment of a non-directory path. -/
def simpleNameMatch (g : String) (dirOnly isDir : Bool) : List String → Bool
  | [] => false
  | n :: rest =>
      if goMatch g n then
        if dirOnly && !isDir && rest.isEmpty then false else true
      else simpleNameMatch g dirOnly isDir rest

/-- Modelled from the spec: an anchored pattern matches path segments from the
root; empty segments are skipped, `**` spans any number of segments, and a
pattern that consumes a proper prefix of the path matches (the remainder lies
below the matched directory).  A directory-only pattern that consumes the
whole path requires the path to be a directory. -/
def globSegs (dirOnly isDir : Bool) : List String → List String → Bool
  | [], [] => !(dirOnly && !isDir)
  | [], _ :: _ => true
  | g :: ps, path =>
      if g == "" then globSegs dirOnly isDir ps path
      else if g == "**" then
        (if ps.isEmpty then true
         else path.tails.any fun rest => globSegs dirOnly isDir ps rest)
      else
        match path with
        | [] => false
        | n :: rest => goMatch g n && globSegs dirOnly isDir ps rest

/-- Modelled from the spec: the verdict of a single compiled rule on a
segment path (`Pattern.Match`). -/
def patternMatch (p : GitPattern) (path : List String) (isDir : Bool) : MatchResult :=
  match path with
  | [] => .noMatch
  | _ :: _ =>
      let matched :=
        if p.isGlob then globSegs p.dirOnly isDir p.pat path
        else simpleNameMatch (p.pat.headD "") p.dirOnly isDir path
      if matched then (if p.inclusion then .incl else .excl) else .noMatch

/-- The decision of the first rule, scanning a rule list in the given order,
that yields a verdict. -/
def firstDecision (path : List String) (isDir : Bool) : List GitPattern → MatchResult
  | [] => .noMatch
  | p :: ps =>
      match patternMatch p path isDir with
      | .noMatch => firstDecision path isDir ps
      | r => r

/-- Modelled from the spec: `Matcher.Match` scans the compiled rules from the
last declared to the first and the first verdict found decides; with no
verdict the path is not ignored. -/
def matcherMatch (ps : List GitPattern) (path : List String) (isDir : Bool) : Bool :=
  firstDecision path isDir ps.reverse == MatchResult.excl

/-- Segment-level body of `shouldIgnore` from the source: every prefix of the
candidate's segments is offered to the matcher, the true is-directory flag
being passed only for the full path (`isDir && i == len(parts)-1`). -/
def shouldIgnoreSegs (ps : List GitPattern) (parts : List String) (isDir : Bool) : Bool :=
  (List.range parts.length).any fun i =>
    matcherMatch ps (parts.take (i + 1)) (isDir && i == parts.length - 1)

/-- `shouldIgnore` from the source: the root path `"."` is never ignored;
otherwise the slash-separated path is split into segments and every prefix is
tested.  (The source joins `parts[:i+1]` back into a string and re-splits it;
for slash-separated segments this round trip is the identity.) -/
def shouldIgnore (ps : List GitPattern) (path : String) (isDir : Bool) : Bool :=
  if path == "." then false
  else shouldIgnoreSegs ps (strSplit path '/') isDir

/-! ## Loading `.gitignore` -/

/-- Compilation of the scanned lines of a `.gitignore` file, from the loop in
`loadGitignorePatterns`: each line is trimmed, blank lines and `#` comment
lines contribute no rule, every other line is compiled in order. -/
def parseGitignoreLines (lines : List String) : List GitPattern :=
  lines.filterMap fun line =>
    let l := trimSpace line
    if l == "" || strStarts l "#" then none else some (parsePattern l)

/-- `loadGitignorePatterns` from the source.  The outcome of opening and
scanning `<root>/.gitignore` is a parameter: `none` models `os.IsNotExist`
(no `.gitignore`), `some (.error e)` models any other open or scanner
failure, `some (.ok lines)` models a successful line scan. -/
def loadGitignorePatterns :
    Option (Except String (List String)) → Except String (List GitPattern)
  | none => .ok []
  | some (.error e) => .error e
  | some (.ok lines) => .ok (parseGitignoreLines lines)

/-! ## The directory tree and the walker -/

mutual
/-- A node of the directory tree being walked.  `file` carries the
`Mode().IsRegular()` flag and the outcome that opening and reading the file
will produce (`.error` models a per-file read failure); `errEntry` is an
entry whose visit hands the walk callback a non-nil error (unreadable
directory, lstat failure), which aborts the traversal. -/
inductive FSNode where
  | file (regular : Bool) (content : Except String String)
  | errEntry (msg : String)
  | dir (entries : FSEntries)

/-- The named entries of a directory, listed in the order `filepath.WalkDir`
visits them (it reads directories in lexical order). -/
inductive FSEntries where
  | nil
  | cons (name : String) (node : FSNode) (rest : FSEntries)
end

deriving instance DecidableEq for Except

/-- `GatherOptions` from the source. -/
structure GatherOptions where
  Extensions : List String
  IncludeHidden : Bool
  IgnoreGitignore : Bool
  IgnorePatterns : List String
  IgnoreFilesOnly : Bool
deriving DecidableEq

/-- `FileInput` from the source: one walk candidate.  `content` records what
`readFileContent` will observe at `path` (the tree does not change during a
run), so that the worker stage can be modelled on the candidate alone. -/
structure FileInput where
  path : String
  relPath : String
  content : Except String String
deriving DecidableEq

/-- `FileResult` from the source. -/
structure FileResult where
  path : String
  relPath : String
  content : String
  err : Option String
deriving DecidableEq

/-- `shouldIgnorePatterns` from the source: with `filesOnly` set directories
are never ignored; otherwise any extra pattern `filepath.Match`-ing the base
name ignores the entry. -/
def shouldIgnorePatterns (name : String) (isDir : Bool)
    (patterns : List String) (filesOnly : Bool) : Bool :=
  if filesOnly && isDir then false
  else patterns.any fun pat => goMatch pat name

/-- The VCS metadata directory names skipped unconditionally by the walk. -/
def isVCS (name : String) : Bool :=
  name == ".git" || name == ".svn" || name == ".hg"

/-- The extension allow-list test from the walk callback: the base name's
`filepath.Ext` must equal some allow-list entry, a missing leading dot being
added to the entry first. -/
def extAllowed (name : String) (exts : List String) : Bool :=
  exts.any fun ext =>
    let wanted := if strStarts ext "." then ext else "." ++ ext
    goExt name == wanted

/-- The filter chain of the walk callback for an entry strictly below the
root, in source order: hidden check on the base name, VCS check for
directories, gitignore check (the matcher is consulted only when one was
built; the callback reaches this check only with `relPath ≠ "."`, which holds
for every entry below the root), then the extra ignore patterns.  The source
joins the segments into `relPath` and `shouldIgnore` re-splits it; the model
passes the segments directly. -/
def entrySkipped (opts : GatherOptions) (gm : Option (List GitPattern))
    (name : String) (segs : List String) (isDir : Bool) : Bool :=
  (!opts.IncludeHidden && strStarts name ".")
  || (isDir && isVCS name)
  || (match gm with
      | some ps => shouldIgnoreSegs ps segs isDir
      | none => false)
  || (!opts.IgnorePatterns.isEmpty &&
        shouldIgnorePatterns name isDir opts.IgnorePatterns opts.IgnoreFilesOnly)

/-- The candidate built for a surviving regular file: `path` is the walk path
(root path joined with the relative path) and `relPath` the forward-slash
relative path. -/
def mkInput (rootPath : String) (segs : List String)
    (c : Except String String) : FileInput :=
  { path := rootPath ++ "/" ++ relOf segs
    relPath := relOf segs
    content := c }

mutual
/-- The walk callback applied to the entry `node` (base name `name`, segment
path `segs` relative to the root) and, for directories that are not skipped,
to everything beneath it.  Returns the candidates emitted in traversal order
together with the error that aborted the traversal, if any; `SkipDir` and
per-entry `return nil` both emit nothing and carry no error. -/
def walkEntry (opts : GatherOptions) (gm : Option (List GitPattern))
    (rootPath name : String) (segs : List String) :
    FSNode → List FileInput × Option String
  | .errEntry e => ([], some e)
  | .file regular c =>
      if entrySkipped opts gm name segs false then ([], none)
      else if !regular then ([], none)
      else if !opts.Extensions.isEmpty && !extAllowed name opts.Extensions then
        ([], none)
      else ([mkInput rootPath segs c], none)
  | .dir es =>
      if entrySkipped opts gm name segs true then ([], none)
      else walkEntries opts gm rootPath segs es

/-- The walk over a directory's entries: a traversal error aborts the whole
walk (candidates already emitted are kept), otherwise the emissions are
concatenated in order. -/
def walkEntries (opts : GatherOptions) (gm : Option (List GitPattern))
    (rootPath : String) (segs : List String) :
    FSEntries → List FileInput × Option String
  | .nil => ([], none)
  | .cons n child rest =>
      match walkEntry opts gm rootPath n (segs ++ [n]) child with
      | (out, some e) => (out, some e)
      | (out, none) =>
          match walkEntries opts gm rootPath segs rest with
          | (out2, e2) => (out ++ out2, e2)
end

/-- The filter chain of the walk callback at the root itself (relative path
`"."`, base name `name` = the base of the walked path): the hidden check and
the extra ignore patterns are applied to the root's own base name exactly as
the source does, while the gitignore check is guarded by `relPath != "."` and
therefore never consulted here. -/
def rootSkipped (opts : GatherOptions) (name : String) (isDir : Bool) : Bool :=
  (!opts.IncludeHidden && strStarts name ".")
  || (isDir && isVCS name)
  || (!opts.IgnorePatterns.isEmpty &&
        shouldIgnorePatterns name isDir opts.IgnorePatterns opts.IgnoreFilesOnly)

/-- The walk callback at the root node.  A root directory that survives its
own checks is descended into; a root that is a regular file is itself a
candidate with relative path `"."`. -/
def walkRoot (opts : GatherOptions) (gm : Option (List GitPattern))
    (rootPath rootName : String) : FSNode → List FileInput × Option String
  | .errEntry e => ([], some e)
  | .file regular c =>
      if rootSkipped opts rootName false then ([], none)
      else if !regular then ([], none)
      else if !opts.Extensions.isEmpty && !extAllowed rootName opts.Extensions then
        ([], none)
      else ([{ path := rootPath, relPath := ".", content := c }], none)
  | .dir es =>
      if rootSkipped opts rootName true then ([], none)
      else walkEntries opts gm rootPath [] es

/-- `walkFiles` from the source, with the channel pair collapsed to the pair
(emitted candidates, walk error): unless gitignore handling is disabled the
patterns are loaded first (a load failure is reported as the walk error,
wrapped with `"loading gitignore: "`, and nothing is walked), a matcher being
built only when at least one pattern was read; then the tree is walked from
the root.  `rootName` is the base name of `rootPath`, which is what the
root's `DirEntry.Name()` reports. -/
def walkFiles (gi : Option (Except String (List String)))
    (rootPath rootName : String) (root : FSNode) (opts : GatherOptions) :
    List FileInput × Option String :=
  if opts.IgnoreGitignore then walkRoot opts none rootPath rootName root
  else
    match loadGitignorePatterns gi with
    | .error e => ([], some ("loading gitignore: " ++ e))
    | .ok pats =>
        walkRoot opts (if pats.isEmpty then none else some pats)
          rootPath rootName root

/-! ## Workers, merger and `Gather` -/

/-- `readFileContent` from the source: open-or-read failure yields the empty
string paired with the error, success yields the content and no error. -/
def readFileContent : Except String String → String × Option String
  | .error e => ("", some e)
  | .ok c => (c, none)

/-- The body of the worker loop in `processFile`: one candidate becomes one
`FileResult` carrying the read outcome. -/
def processInput (i : FileInput) : FileResult :=
  let r := readFileContent i.content
  { path := i.path, relPath := i.relPath, content := r.1, err := r.2 }

/-- `processFile` from the source, one worker's whole run: each candidate
taken from its input stream yields exactly one record, a per-file read error
never ending the loop. -/
def processFile (ins : List FileInput) : List FileResult := ins.map processInput

/-- `merge` from the source with a fixed interleaving: the fan-in of the
worker streams contains every record of every stream.  The theorems about the
pipeline quantify over all permutations of this list, covering every
interleaving the concurrent merger can produce. -/
def merge (chs : List (List FileResult)) : List FileResult := chs.flatten

/-- `Gather` from the source: walk, process every emitted candidate, and pair
the collected records with the walk error (wrapped with
`"error walking directory: "`) once the stream is exhausted. -/
def Gather (gi : Option (Except String (List String)))
    (rootPath rootName : String) (root : FSNode) (opts : GatherOptions) :
    List FileResult × Option String :=
  match walkFiles gi rootPath rootName root opts with
  | (ins, werr) =>
      (processFile ins, werr.map (fun e => "error walking directory: " ++ e))

/-! ## Specification-side description of the gathered set

The specification characterises the output declaratively: the set of
relative paths of the regular files below the root that neither themselves
nor through any ancestor directory are excluded by the hidden-file policy,
the VCS-directory skip, the gitignore rules or the extra ignore patterns,
and that pass the extension allow-list.  The definitions below follow that
wording; the refinement theorem compares them with the walk. -/

mutual
/-- All files below the named entry `name`, as (segment path, regular flag,
read outcome), in the entry order of the tree. -/
def entryFilesN (name : String) : FSNode → List (List String × Bool × Except String String)
  | .file regular c => [([name], regular, c)]
  | .errEntry _ => []
  | .dir es => (entryFilesE es).map fun t => (name :: t.1, t.2)

/-- All files below a directory's entries. -/
def entryFilesE : FSEntries → List (List String × Bool × Except String String)
  | .nil => []
  | .cons n child rest => entryFilesN n child ++ entryFilesE rest
end

mutual
/-- No `errEntry` anywhere below: the traversal completes without a
walk-level error. -/
def noErrN : FSNode → Bool
  | .file _ _ => true
  | .errEntry _ => false
  | .dir es => noErrE es

/-- No `errEntry` anywhere below a directory's entries. -/
def noErrE : FSEntries → Bool
  | .nil => true
  | .cons _ child rest => noErrN child && noErrE rest
end

/-- Specification wording: the entry at segment path `segs` (a directory when
`isDir`) is excluded when the hidden-file policy rejects its base name, when
it is a VCS metadata directory, when the gitignore rules ignore its path, or
when an extra ignore pattern matches its base name (subject to the files-only
policy). -/
def specEntryExcluded (opts : GatherOptions) (gm : Option (List GitPattern))
    (segs : List String) (isDir : Bool) : Bool :=
  let name := segs.getLastD ""
  (!opts.IncludeHidden && strStarts name ".")
  || (isDir && isVCS name)
  || (match gm with
      | some ps => shouldIgnoreSegs ps segs isDir
      | none => false)
  || (!opts.IgnorePatterns.isEmpty &&
        shouldIgnorePatterns name isDir opts.IgnorePatterns opts.IgnoreFilesOnly)

/-- Specification wording: a file at segment path `segs` is in the gathered
set when it is a regular file, neither it nor any of its ancestor directories
is excluded, and its extension passes a configured allow-list. -/
def specFileKept (opts : GatherOptions) (gm : Option (List GitPattern))
    (segs : List String) (regular : Bool) : Bool :=
  regular
  && !((List.range segs.length).any fun i =>
        specEntryExcluded opts gm (segs.take (i + 1)) (i + 1 != segs.length))
  && (opts.Extensions.isEmpty || extAllowed (segs.getLastD "") opts.Extensions)

/-- The gitignore matcher the pipeline runs with: none when gitignore
handling is disabled, none when loading produced no rules (or failed, in
which case the walk aborts before matching), otherwise the loaded rules. -/
def matcherOf (gi : Option (Except String (List String)))
    (opts : GatherOptions) : Option (List GitPattern) :=
  if opts.IgnoreGitignore then none
  else
    match loadGitignorePatterns gi with
    | .error _ => none
    | .ok pats => if pats.isEmpty then none else some pats

/-- Specification wording: the relative paths of the regular files below the
root that survive every exclusion rule, in tree order. -/
def specGatherList (opts : GatherOptions) (gm : Option (List GitPattern))
    (es : FSEntries) : List String :=
  (entryFilesE es).filterMap fun t =>
    if specFileKept opts gm t.1 t.2.1 then some (relOf t.1) else none

/-! ## The walk computes the specification set

The walker prunes whole subtrees at excluded directories; the specification
filters each file by looking at all of its ancestors.  The lemmas below show
the two agree. -/

theorem specEntryExcluded_concat (opts : GatherOptions) (gm : Option (List GitPattern))
    (ctx : List String) (n : String) (d : Bool) :
    specEntryExcluded opts gm (ctx ++ [n]) d = entrySkipped opts gm n (ctx ++ [n]) d := by
  simp only [specEntryExcluded, entrySkipped, List.getLastD_concat]

theorem entryFilesN_ne_nil (name : String) (node : FSNode) :
    ∀ t ∈ entryFilesN name node, t.1 ≠ [] := by
  intro t ht
  cases node with
  | file r c =>
      simp only [entryFilesN, List.mem_singleton] at ht
      subst ht; simp
  | errEntry e => simp [entryFilesN] at ht
  | dir es =>
      simp only [entryFilesN, List.mem_map] at ht
      obtain ⟨u, _, rfl⟩ := ht
      simp

theorem entryFilesE_ne_nil : (es : FSEntries) → ∀ t ∈ entryFilesE es, t.1 ≠ []
  | .nil => by simp [entryFilesE]
  | .cons n child rest => by
      intro t ht
      rw [entryFilesE] at ht
      rcases List.mem_append.1 ht with h | h
      · exact entryFilesN_ne_nil n child t h
      · exact entryFilesE_ne_nil rest t h

/-- With every ancestor of `ctx` alive, the specification's ancestor scan on
`ctx ++ [n]` reduces to the entry's own exclusion check. -/
theorem range_any_concat (opts : GatherOptions) (gm : Option (List GitPattern))
    (ctx : List String) (n : String)
    (hctx : ∀ i, i < ctx.length → specEntryExcluded opts gm (ctx.take (i + 1)) true = false) :
    ((List.range (ctx ++ [n]).length).any fun i =>
        specEntryExcluded opts gm ((ctx ++ [n]).take (i + 1)) (i + 1 != (ctx ++ [n]).length))
      = specEntryExcluded opts gm (ctx ++ [n]) false := by
  have hlen : (ctx ++ [n]).length = ctx.length + 1 := by simp
  rw [hlen, List.range_succ, List.any_append]
  have h1 : ((List.range ctx.length).any fun i =>
      specEntryExcluded opts gm ((ctx ++ [n]).take (i + 1)) (i + 1 != ctx.length + 1)) = false := by
    rw [List.any_eq_false]
    intro i hi
    rw [List.mem_range] at hi
    rw [List.take_append_of_le_length (by omega)]
    have hflag : (i + 1 != ctx.length + 1) = true := by
      simp only [bne_iff_ne, ne_eq]; omega
    rw [hflag, hctx i hi]
    simp
  rw [h1]
  simp only [List.any_cons, List.any_nil, Bool.or_false, Bool.false_or]
  rw [show (ctx ++ [n]).take (ctx.length + 1) = ctx ++ [n] by
    rw [← hlen, List.take_length]]
  simp

/-- A file directly inside the live directory `ctx` is kept exactly when it
passes its own checks: regularity, the entry filters, and the allow-list. -/
theorem specFileKept_concat (opts : GatherOptions) (gm : Option (List GitPattern))
    (ctx : List String) (n : String) (r : Bool)
    (hctx : ∀ i, i < ctx.length → specEntryExcluded opts gm (ctx.take (i + 1)) true = false) :
    specFileKept opts gm (ctx ++ [n]) r
      = (r && !(entrySkipped opts gm n (ctx ++ [n]) false)
           && (opts.Extensions.isEmpty || extAllowed n opts.Extensions)) := by
  unfold specFileKept
  rw [range_any_concat opts gm ctx n hctx, specEntryExcluded_concat, List.getLastD_concat]

/-- Every file below an excluded directory is dead for the specification. -/
theorem specFileKept_dead (opts : GatherOptions) (gm : Option (List GitPattern))
    (ctx : List String) (n : String) (p : List String) (r : Bool) (hp : p ≠ [])
    (hex : specEntryExcluded opts gm (ctx ++ [n]) true = true) :
    specFileKept opts gm (ctx ++ n :: p) r = false := by
  unfold specFileKept
  have hplen : 0 < p.length := List.length_pos.2 hp
  have hlen : (ctx ++ n :: p).length = ctx.length + 1 + p.length := by simp; omega
  have hany : ((List.range (ctx ++ n :: p).length).any fun i =>
      specEntryExcluded opts gm ((ctx ++ n :: p).take (i + 1)) (i + 1 != (ctx ++ n :: p).length)) = true := by
    rw [List.any_eq_true]
    refine ⟨ctx.length, ?_, ?_⟩
    · rw [List.mem_range]; omega
    · have hsplit : ctx ++ n :: p = (ctx ++ [n]) ++ p := by simp
      have h1 : (ctx ++ n :: p).take (ctx.length + 1) = ctx ++ [n] := by
        rw [hsplit, List.take_append_of_le_length (by simp),
          show ctx.length + 1 = (ctx ++ [n]).length by simp, List.take_length]
      rw [h1]
      have hflag : (ctx.length + 1 != (ctx ++ n :: p).length) = true := by
        simp only [bne_iff_ne, ne_eq, hlen]; omega
      rw [hflag, hex]
  rw [hany]
  simp

mutual
/-- The walk of one entry below a live ancestor chain emits exactly the
specification-kept files below it, in order, with no error. -/
theorem walkEntry_eq (opts : GatherOptions) (gm : Option (List GitPattern))
    (rootPath : String) (ctx : List String) (name : String) (node : FSNode)
    (hne : noErrN node = true)
    (hctx : ∀ i, i < ctx.length → specEntryExcluded opts gm (ctx.take (i + 1)) true = false) :
    walkEntry opts gm rootPath name (ctx ++ [name]) node
      = ((entryFilesN name node).filterMap fun t =>
          if specFileKept opts gm (ctx ++ t.1) t.2.1 then
            some (mkInput rootPath (ctx ++ t.1) t.2.2) else none, none) := by
  cases node with
  | errEntry e => simp [noErrN] at hne
  | file regular c =>
      rw [walkEntry, entryFilesN]
      have hext : (!opts.Extensions.isEmpty && !extAllowed name opts.Extensions)
          = !(opts.Extensions.isEmpty || extAllowed name opts.Extensions) := by
        cases opts.Extensions.isEmpty <;> cases extAllowed name opts.Extensions <;> rfl
      rw [hext]
      simp only [List.filterMap_cons, List.filterMap_nil]
      rw [specFileKept_concat opts gm ctx name regular hctx]
      cases hs : entrySkipped opts gm name (ctx ++ [name]) false <;>
        cases regular <;>
          cases he : (opts.Extensions.isEmpty || extAllowed name opts.Extensions) <;>
            simp [hs, he]
  | dir es =>
      rw [walkEntry, entryFilesN]
      cases hs : entrySkipped opts gm name (ctx ++ [name]) true with
      | true =>
          have hnil : ((entryFilesE es).map (fun t => (name :: t.1, t.2))).filterMap
              (fun t => if specFileKept opts gm (ctx ++ t.1) t.2.1 then
                some (mkInput rootPath (ctx ++ t.1) t.2.2) else none) = [] := by
            rw [List.filterMap_map, List.filterMap_eq_nil_iff]
            intro t ht
            have hp := entryFilesE_ne_nil es t ht
            have hdead := specFileKept_dead opts gm ctx name t.1 t.2.1 hp
              (by rw [specEntryExcluded_concat]; exact hs)
            simp [Function.comp, hdead]
          rw [hnil]
          simp
      | false =>
          have hctx2 : ∀ i, i < (ctx ++ [name]).length →
              specEntryExcluded opts gm ((ctx ++ [name]).take (i + 1)) true = false := by
            intro i hi
            have hlen : (ctx ++ [name]).length = ctx.length + 1 := by simp
            rw [hlen] at hi
            rcases Nat.lt_or_ge i ctx.length with h | h
            · rw [List.take_append_of_le_length (by omega)]
              exact hctx i h
            · have hi2 : i = ctx.length := by omega
              subst hi2
              rw [show ctx.length + 1 = (ctx ++ [name]).length by simp, List.take_length,
                specEntryExcluded_concat]
              exact hs
          rw [walkEntries_eq opts gm rootPath (ctx ++ [name]) es (by simpa [noErrN] using hne) hctx2]
          rw [List.filterMap_map]
          have hfun : (fun t : List String × Bool × Except String String =>
              if specFileKept opts gm ((ctx ++ [name]) ++ t.1) t.2.1 then
                some (mkInput rootPath ((ctx ++ [name]) ++ t.1) t.2.2) else none)
              = ((fun t : List String × Bool × Except String String =>
                  if specFileKept opts gm (ctx ++ t.1) t.2.1 then
                    some (mkInput rootPath (ctx ++ t.1) t.2.2) else none)
                ∘ (fun t => (name :: t.1, t.2))) := by
            funext t
            simp only [Function.comp, List.append_assoc, List.singleton_append]
          rw [hfun]
          simp

/-- The walk of a live directory's entry list emits exactly the
specification-kept files below it, in order, with no error. -/
theorem walkEntries_eq (opts : GatherOptions) (gm : Option (List GitPattern))
    (rootPath : String) (ctx : List String) (es : FSEntries)
    (hne : noErrE es = true)
    (hctx : ∀ i, i < ctx.length → specEntryExcluded opts gm (ctx.take (i + 1)) true = false) :
    walkEntries opts gm rootPath ctx es
      = ((entryFilesE es).filterMap fun t =>
          if specFileKept opts gm (ctx ++ t.1) t.2.1 then
            some (mkInput rootPath (ctx ++ t.1) t.2.2) else none, none) := by
  cases es with
  | nil => rw [walkEntries, entryFilesE]; simp
  | cons n child rest =>
      rw [noErrE, Bool.and_eq_true] at hne
      rw [walkEntries, walkEntry_eq opts gm rootPath ctx n child hne.1 hctx,
        walkEntries_eq opts gm rootPath ctx rest hne.2 hctx,
        entryFilesE, List.filterMap_append]
end

/-- Unless loading failed, the walk runs with the matcher `matcherOf`
describes. -/
theorem walkFiles_eq_walkRoot (gi : Option (Except String (List String)))
    (rootPath rootName : String) (root : FSNode) (opts : GatherOptions)
    (hgi : ∀ e, gi ≠ some (Except.error e)) :
    walkFiles gi rootPath rootName root opts
      = walkRoot opts (matcherOf gi opts) rootPath rootName root := by
  unfold walkFiles matcherOf
  cases hig : opts.IgnoreGitignore
  · cases gi with
    | none => simp [loadGitignorePatterns]
    | some x =>
        cases x with
        | error e => exact absurd rfl (hgi e)
        | ok lines => simp [loadGitignorePatterns]
  · simp

/-- The worker stage does not touch the relative path of a record. -/
theorem processFile_relPaths (ins : List FileInput) :
    (processFile ins).map (fun r => r.relPath) = ins.map (fun i => i.relPath) := by
  unfold processFile
  rw [List.map_map]
  rfl

/-! ## Claims -/

/-- Defaults of the CLI: no extension filter, hidden files included,
gitignore respected, no extra patterns. -/
def exOpts : GatherOptions :=
  { Extensions := []
    IncludeHidden := true
    IgnoreGitignore := false
    IgnorePatterns := []
    IgnoreFilesOnly := false }

/-- A plain one-file tree used to exhibit the root-name sensitivity. -/
def plainEntries : FSEntries := .cons "a.txt" (.file true (.ok "A")) .nil

/-- A tree exercising gitignore exclusion and re-inclusion, subtree pruning,
VCS skipping and the regular-file check. -/
def bigEntries : FSEntries :=
  .cons "a.log" (.file true (.ok "L"))
    (.cons "keep.log" (.file true (.ok "K"))
      (.cons "build" (.dir (.cons "x.txt" (.file true (.ok "X")) .nil))
        (.cons ".git" (.dir (.cons "cfg" (.file true (.ok "C")) .nil))
          (.cons "dev" (.file false (.ok "D"))
            (.cons "src" (.dir (.cons "m.go" (.file true (.ok "M")) .nil)) .nil)))))

/--
C1, counterexample.  The claim quantifies over every configuration, but the
walk callback applies the hidden-file check to the root's own base name: with
`IncludeHidden = false` and a root directory whose base name is `".proj"`,
`Gather` emits nothing although the regular file `a.txt` below the root is
excluded by no rule, so the two sets differ.
-/
theorem gather_relpath_set_counterexample :
    ¬ (∀ x, x ∈ (Gather none "/p/.proj" ".proj" (.dir plainEntries)
          { exOpts with IncludeHidden := false }).1.map (fun r => r.relPath)
        ↔ x ∈ specGatherList { exOpts with IncludeHidden := false }
            (matcherOf none { exOpts with IncludeHidden := false }) plainEntries) := by
  intro h
  exact absurd ((h "a.txt").2 (by decide)) (by decide)

/--
C1 (amended).  For every tree whose traversal completes without a walk-level
error, every gitignore outcome other than a read failure, and every
configuration under which the root directory entry itself passes the walk's
hidden-file, VCS and extra-pattern checks, the set of relative paths carried
by the records `Gather` returns equals exactly the set of relative paths of
regular files below the root that are not excluded by the hidden-file policy,
the VCS-directory skip, the gitignore rules, the extra ignore patterns, or
the extension allow-list — an equality of sets, independent of record order.
-/
theorem gather_relpath_set_eq_spec (gi : Option (Except String (List String)))
    (rootPath rootName : String) (es : FSEntries) (opts : GatherOptions)
    (hne : noErrE es = true)
    (hgi : ∀ e, gi ≠ some (Except.error e))
    (hroot : rootSkipped opts rootName true = false) :
    ∀ x, (x ∈ (Gather gi rootPath rootName (.dir es) opts).1.map (fun r => r.relPath)
      ↔ x ∈ specGatherList opts (matcherOf gi opts) es) := by
  have hwe := walkEntries_eq opts (matcherOf gi opts) rootPath [] es hne
    (by intro i hi; simp at hi)
  have hlist : (Gather gi rootPath rootName (.dir es) opts).1.map (fun r => r.relPath)
      = specGatherList opts (matcherOf gi opts) es := by
    unfold Gather
    rw [walkFiles_eq_walkRoot gi rootPath rootName (.dir es) opts hgi, walkRoot, hroot]
    simp only [Bool.false_eq_true, if_false]
    rw [hwe]
    simp only
    rw [processFile_relPaths, List.map_filterMap]
    unfold specGatherList
    congr 1
    funext t
    cases hk : specFileKept opts (matcherOf gi opts) ([] ++ t.1) t.2.1 with
    | true =>
        simp only [List.nil_append] at hk
        simp [hk, mkInput]
    | false =>
        simp only [List.nil_append] at hk
        simp [hk]
  intro x
  rw [hlist]

/-- Instantiation of the amended C1 theorem on a concrete tree with a
gitignore file, a pruned directory, a negated rule, a hidden VCS directory
and a non-regular file. -/
theorem gather_relpath_set_eq_spec_witness :
    ("src/m.go" ∈ (Gather (some (.ok ["*.log", "!keep.log", "# note", "", "build/"]))
        "/r" "r" (.dir bigEntries) exOpts).1.map (fun r => r.relPath))
      ↔ "src/m.go" ∈ specGatherList exOpts
          (matcherOf (some (.ok ["*.log", "!keep.log", "# note", "", "build/"])) exOpts)
          bigEntries :=
  gather_relpath_set_eq_spec (some (.ok ["*.log", "!keep.log", "# note", "", "build/"]))
    "/r" "r" bigEntries exOpts (by decide) (by intro e; simp) (by decide) "src/m.go"

/--
C2.  For the rule sequence `["*.log", "!keep.log"]` the compiled matcher
ignores `other.log` and `dir/deep.log` but not `keep.log`; in general the
last matching rule wins: a later-declared rule whose verdict is inclusion
re-includes the path whatever earlier rules say.
-/
theorem gitignore_negation_last_wins :
    (shouldIgnore (parseGitignoreLines ["*.log", "!keep.log"]) "other.log" false = true
      ∧ shouldIgnore (parseGitignoreLines ["*.log", "!keep.log"]) "dir/deep.log" false = true
      ∧ shouldIgnore (parseGitignoreLines ["*.log", "!keep.log"]) "keep.log" false = false)
    ∧ ∀ (ps : List GitPattern) (p : GitPattern) (path : List String) (d : Bool),
        patternMatch p path d = MatchResult.incl →
        matcherMatch (ps ++ [p]) path d = false := by
  refine ⟨by decide, ?_⟩
  intro ps p path d h
  unfold matcherMatch
  rw [List.reverse_append, List.reverse_singleton, List.singleton_append, firstDecision, h]
  rfl

/-- Instantiation of the C2 theorem: the negated `!keep.log`, declared last,
re-includes `keep.log` against the earlier `*.log`. -/
theorem gitignore_negation_last_wins_witness :
    matcherMatch ([parsePattern "*.log"] ++ [parsePattern "!keep.log"]) ["keep.log"] false = false :=
  gitignore_negation_last_wins.2 [parsePattern "*.log"] (parsePattern "!keep.log")
    ["keep.log"] false (by decide)

/-- A tree with a directory named `build` containing a nested file. -/
def buildDirEntries : FSEntries :=
  .cons "build" (.dir (.cons "deep.txt" (.file true (.ok "D")) .nil))
    (.cons "keep.txt" (.file true (.ok "K")) .nil)

/-- A tree with a regular file named `build`. -/
def buildFileEntries : FSEntries :=
  .cons "build" (.file true (.ok "B"))
    (.cons "keep.txt" (.file true (.ok "K")) .nil)

/--
C3.  The directory-only pattern `build/` ignores the directory `build` and
(through the prefix scan of `shouldIgnore`, which passes the true
is-directory flag only for the final segment) every file below it, but not a
regular file named `build`; the pattern `build` ignores both the file and the
directory.  On concrete trees: `build/` and `build` both prune the `build`
subtree, `build` excludes the file named `build`, while under `build/` the
file named `build` is still emitted.
-/
theorem dir_only_pattern_semantics :
    (shouldIgnore [parsePattern "build/"] "build" true = true
      ∧ shouldIgnore [parsePattern "build/"] "build/deep.txt" false = true
      ∧ shouldIgnore [parsePattern "build/"] "build" false = false)
    ∧ (shouldIgnore [parsePattern "build"] "build" false = true
      ∧ shouldIgnore [parsePattern "build"] "build" true = true)
    ∧ (walkFiles (some (.ok ["build/"])) "/r" "r" (.dir buildDirEntries) exOpts).1.map
        (fun r => r.relPath) = ["keep.txt"]
    ∧ (walkFiles (some (.ok ["build"])) "/r" "r" (.dir buildDirEntries) exOpts).1.map
        (fun r => r.relPath) = ["keep.txt"]
    ∧ (walkFiles (some (.ok ["build"])) "/r" "r" (.dir buildFileEntries) exOpts).1.map
        (fun r => r.relPath) = ["keep.txt"]
    ∧ (walkFiles (some (.ok ["build/"])) "/r" "r" (.dir buildFileEntries) exOpts).1.map
        (fun r => r.relPath) = ["build", "keep.txt"] := by
  decide

/--
C4, counterexample.  The extra ignore patterns are applied to the root's own
base name: with pattern `r*`, walking a root directory named `root` emits
nothing although the file `a.txt` below it is excluded by no rule applied
below the root, while the identical tree under a root named `base` emits it —
so emission is not decided only by the rules applied to entries strictly
below the root, and a filter can skip the root directory entry.
-/
theorem root_never_ignored_counterexample :
    (walkFiles none "/p/root" "root" (.dir plainEntries)
        { exOpts with IgnorePatterns := ["r*"] }).1 = []
    ∧ (walkFiles none "/p/base" "base" (.dir plainEntries)
        { exOpts with IgnorePatterns := ["r*"] }).1.map (fun r => r.relPath) = ["a.txt"] := by
  decide

/--
C4 (amended).  The gitignore filter never skips the root: `shouldIgnore`
returns false on the root path `"."` for every matcher and flag, and the walk
never consults the matcher at the root; but the hidden-file check and the
extra ignore patterns are applied to the root's own base name, so whenever
the root passes those checks the walk descends and emission below is decided
by the per-entry rules.
-/
theorem root_gitignore_exempt_amended :
    (∀ (ps : List GitPattern) (d : Bool), shouldIgnore ps "." d = false)
    ∧ (∀ (opts : GatherOptions) (gm : Option (List GitPattern))
          (rootPath rootName : String) (es : FSEntries),
        rootSkipped opts rootName true = false →
        walkRoot opts gm rootPath rootName (.dir es) = walkEntries opts gm rootPath [] es) := by
  constructor
  · intro ps d
    unfold shouldIgnore
    exact if_pos rfl
  · intro opts gm rootPath rootName es h
    rw [walkRoot, h]
    simp

/-- Instantiation of the amended C4 theorem at a concrete root. -/
theorem root_gitignore_exempt_amended_witness :
    walkRoot exOpts none "/p" "r" (.dir plainEntries) = walkEntries exOpts none "/p" [] plainEntries :=
  root_gitignore_exempt_amended.2 exOpts none "/p" "r" plainEntries (by decide)

/-- A tree with a hidden file, a hidden directory holding an otherwise
unfiltered file, and a plain file. -/
def hiddenEntries : FSEntries :=
  .cons ".env" (.file true (.ok "E"))
    (.cons ".cache" (.dir (.cons "keep.txt" (.file true (.ok "K")) .nil))
      (.cons "a.txt" (.file true (.ok "A")) .nil))

/--
C5.  With `IncludeHidden = true` the file `.env` is emitted; with
`IncludeHidden = false` it is excluded and the hidden directory `.cache` is
skipped as a whole subtree, so `.cache/keep.txt` is not emitted although it
passes every other filter.
-/
theorem hidden_policy_behavior :
    (walkFiles none "/r" "r" (.dir hiddenEntries) exOpts).1.map (fun r => r.relPath)
        = [".env", ".cache/keep.txt", "a.txt"]
    ∧ (walkFiles none "/r" "r" (.dir hiddenEntries)
        { exOpts with IncludeHidden := false }).1.map (fun r => r.relPath) = ["a.txt"] := by
  decide

/-- The extension-filter example tree: `a.go`, `a.mod`, `sub/b.go`. -/
def goEntries : FSEntries :=
  .cons "a.go" (.file true (.ok "package a"))
    (.cons "a.mod" (.file true (.ok "module a"))
      (.cons "sub" (.dir (.cons "b.go" (.file true (.ok "package b")) .nil)) .nil))

/--
C6.  The allow-list test succeeds exactly when the candidate's extension
(case-sensitively, with its leading dot) equals an allow-list entry
normalised to carry a leading dot; a regular file that reaches the extension
check with a non-empty allow-list is emitted exactly when that test succeeds;
and the allow-list `[".go"]` on the example tree yields exactly
`{a.go, sub/b.go}`.
-/
theorem extension_allowlist :
    (∀ (name : String) (exts : List String),
        extAllowed name exts = true ↔
          ∃ e ∈ exts, goExt name = (if strStarts e "." then e else "." ++ e))
    ∧ (∀ (opts : GatherOptions) (gm : Option (List GitPattern))
          (rootPath name : String) (segs : List String) (c : Except String String),
        opts.Extensions ≠ [] →
        entrySkipped opts gm name segs false = false →
        ((walkEntry opts gm rootPath name segs (.file true c)).1 ≠ []
          ↔ extAllowed name opts.Extensions = true))
    ∧ (walkFiles none "/r" "r" (.dir goEntries)
        { exOpts with Extensions := [".go"] }).1.map (fun r => r.relPath)
        = ["a.go", "sub/b.go"] := by
  refine ⟨?_, ?_, by decide⟩
  · intro name exts
    unfold extAllowed
    rw [List.any_eq_true]
    constructor
    · rintro ⟨e, he, hm⟩
      exact ⟨e, he, by simpa using hm⟩
    · rintro ⟨e, he, hm⟩
      exact ⟨e, he, by simp [hm]⟩
  · intro opts gm rootPath name segs c hE hskip
    rw [walkEntry, hskip]
    cases hx : opts.Extensions with
    | nil => exact absurd hx hE
    | cons a as =>
        cases ha : extAllowed name (a :: as) with
        | true => simp [ha]
        | false => simp [ha]

/-- Instantiation of the C6 theorem: `m.go` passes the `[".go"]` allow-list
and is emitted by the walk callback. -/
theorem extension_allowlist_witness :
    ((walkEntry { exOpts with Extensions := [".go"] } none "/r" "m.go" ["m.go"]
        (.file true (.ok "M"))).1 ≠ []
      ↔ extAllowed "m.go" [".go"] = true)
    ∧ (extAllowed "a.go" [".go"] = true
      ↔ ∃ e ∈ [".go"], goExt "a.go" = (if strStarts e "." then e else "." ++ e)) :=
  ⟨extension_allowlist.2.1 { exOpts with Extensions := [".go"] } none "/r" "m.go"
      ["m.go"] (.ok "M") (by decide) (by decide),
    extension_allowlist.1 "a.go" [".go"]⟩

/--
C7.  When the walk ends with a traversal-level error, `Gather` still returns
the records collected from every candidate emitted before the abort, paired
with that error wrapped as `"error walking directory: ..."`; the error is
surfaced through the error slot once, after the whole collected stream has
been processed.
-/
theorem gather_partial_on_walk_error (gi : Option (Except String (List String)))
    (rootPath rootName : String) (root : FSNode) (opts : GatherOptions) (e : String)
    (h : (walkFiles gi rootPath rootName root opts).2 = some e) :
    Gather gi rootPath rootName root opts
      = (processFile (walkFiles gi rootPath rootName root opts).1,
          some ("error walking directory: " ++ e)) := by
  unfold Gather
  rcases hw : walkFiles gi rootPath rootName root opts with ⟨ins, werr⟩
  rw [hw] at h
  simp only at h
  subst h
  simp

/-- Instantiation of the C7 theorem: an unreadable entry mid-directory
aborts the walk; the file walked before it is still returned, paired with
the wrapped error. -/
theorem gather_partial_on_walk_error_witness :
    Gather none "/r" "r"
        (.dir (.cons "a.txt" (.file true (.ok "A"))
          (.cons "bad" (.errEntry "EACCES")
            (.cons "z.txt" (.file true (.ok "Z")) .nil)))) exOpts
      = (processFile (walkFiles none "/r" "r"
          (.dir (.cons "a.txt" (.file true (.ok "A"))
            (.cons "bad" (.errEntry "EACCES")
              (.cons "z.txt" (.file true (.ok "Z")) .nil)))) exOpts).1,
          some ("error walking directory: " ++ "EACCES")) :=
  gather_partial_on_walk_error none "/r" "r"
    (.dir (.cons "a.txt" (.file true (.ok "A"))
      (.cons "bad" (.errEntry "EACCES")
        (.cons "z.txt" (.file true (.ok "Z")) .nil)))) exOpts "EACCES" (by decide)

/--
C8.  A missing `.gitignore` yields zero rules and no error, and the walk then
runs with no matcher at all; any other read failure aborts the whole walk
with that error (wrapped as `"loading gitignore: ..."`) as a fatal walk-level
error; and a line that trims to empty or to a `#` comment contributes no
compiled rule.
-/
theorem gitignore_load_edge_cases :
    (loadGitignorePatterns none = .ok []
      ∧ ∀ (rootPath rootName : String) (root : FSNode) (opts : GatherOptions),
          walkFiles none rootPath rootName root opts
            = walkRoot opts none rootPath rootName root)
    ∧ (∀ (e : String) (rootPath rootName : String) (root : FSNode) (opts : GatherOptions),
        opts.IgnoreGitignore = false →
        loadGitignorePatterns (some (.error e)) = .error e
        ∧ walkFiles (some (.error e)) rootPath rootName root opts
            = ([], some ("loading gitignore: " ++ e)))
    ∧ (∀ (pre post : List String) (c : String),
        trimSpace c = "" ∨ strStarts (trimSpace c) "#" = true →
        parseGitignoreLines (pre ++ c :: post) = parseGitignoreLines (pre ++ post)) := by
  refine ⟨⟨rfl, ?_⟩, ?_, ?_⟩
  · intro rootPath rootName root opts
    unfold walkFiles
    cases hig : opts.IgnoreGitignore <;> simp [loadGitignorePatterns]
  · intro e rootPath rootName root opts hig
    refine ⟨rfl, ?_⟩
    unfold walkFiles
    rw [hig]
    simp [loadGitignorePatterns]
  · intro pre post c hc
    unfold parseGitignoreLines
    rw [List.filterMap_append, List.filterMap_append, List.filterMap_cons]
    rcases hc with h | h
    · simp [h]
    · simp [h]

/-- Instantiation of the C8 theorem: a read failure is fatal and wrapped; a
comment line compiles to no rule. -/
theorem gitignore_load_edge_cases_witness :
    walkFiles (some (.error "disk error")) "/r" "r" (.dir plainEntries) exOpts
        = ([], some ("loading gitignore: " ++ "disk error"))
    ∧ parseGitignoreLines (["*.log"] ++ "# comment" :: ["build/"])
        = parseGitignoreLines (["*.log"] ++ ["build/"]) :=
  ⟨(gitignore_load_edge_cases.2.1 "disk error" "/r" "r" (.dir plainEntries) exOpts rfl).2,
    gitignore_load_edge_cases.2.2 ["*.log"] ["build/"] "# comment" (Or.inr (by decide))⟩

/--
C9.  A worker's record carries either the file content with no error or a
read error with empty content — never both populated — and a per-file read
error never shortens the worker loop: every candidate in the input yields
its record.
-/
theorem worker_record_exclusive (ins : List FileInput) :
    (∀ i ∈ ins, (processInput i).err = none ∨ (processInput i).content = "")
    ∧ (processFile ins).length = ins.length := by
  constructor
  · intro i _
    cases hc : i.content with
    | ok c => left; simp [processInput, readFileContent, hc]
    | error e => right; simp [processInput, readFileContent, hc]
  · unfold processFile
    exact List.length_map ins processInput

/-- Instantiation of the C9 theorem on a one-candidate run whose read
fails. -/
theorem worker_record_exclusive_witness :
    ((processInput ⟨"/r/a", "a", .error "denied"⟩).err = none
        ∨ (processInput ⟨"/r/a", "a", .error "denied"⟩).content = "")
    ∧ (processFile [(⟨"/r/a", "a", .error "denied"⟩ : FileInput)]).length
        = [(⟨"/r/a", "a", .error "denied"⟩ : FileInput)].length :=
  ⟨(worker_record_exclusive [⟨"/r/a", "a", .error "denied"⟩]).1
      ⟨"/r/a", "a", .error "denied"⟩ (by simp),
    (worker_record_exclusive [⟨"/r/a", "a", .error "denied"⟩]).2⟩

/-- The fan-in of the per-worker outputs is the processing of the full
candidate list, whatever way the candidates were distributed. -/
theorem merge_map_processFile (ws : List (List FileInput)) :
    merge (ws.map processFile) = processFile ws.flatten := by
  unfold merge processFile
  rw [List.map_flatten]

/--
C10.  Absent cancellation, every walk candidate yields exactly one record in
the collected output: for every distribution of the candidates over the
workers (each candidate consumed exactly once by exactly one worker) and
every interleaving the fan-in merger can deliver, the collected records are a
permutation of one record per candidate — nothing dropped, nothing
duplicated.
-/
theorem pipeline_no_drop_no_dup (ins : List FileInput) (ws : List (List FileInput))
    (out : List FileResult)
    (hsplit : ws.flatten.Perm ins)
    (hout : out.Perm (merge (ws.map processFile))) :
    out.Perm (processFile ins) := by
  rw [merge_map_processFile] at hout
  unfold processFile at hout ⊢
  exact hout.trans (hsplit.map processInput)

/-- Instantiation of the C10 theorem: two candidates distributed over two
workers in swapped order still yield exactly one record each. -/
theorem pipeline_no_drop_no_dup_witness :
    ([processInput ⟨"/r/b", "b", .ok "B"⟩, processInput ⟨"/r/a", "a", .ok "A"⟩] : List FileResult).Perm
      (processFile [⟨"/r/a", "a", .ok "A"⟩, ⟨"/r/b", "b", .ok "B"⟩]) :=
  pipeline_no_drop_no_dup
    [⟨"/r/a", "a", .ok "A"⟩, ⟨"/r/b", "b", .ok "B"⟩]
    [[⟨"/r/b", "b", .ok "B"⟩], [⟨"/r/a", "a", .ok "A"⟩]]
    [processInput ⟨"/r/b", "b", .ok "B"⟩, processInput ⟨"/r/a", "a", .ok "A"⟩]
    (by decide) (by decide)

end FilesCombine
